import Mathlib

/-!
Verification of the `enum_meta` crate (src/lib.rs) against its specification.

The crate consists of two declarative macros. `meta!` generates, for a variant
type and a table of `variant, expression` rows, an eager `fn meta` (a `match`
over the variant with one arm per row) and `fn all` (a `vec!` of the listed
variants). `lazy_meta!` generates a `lazy_static` store populating a
`HashMap<Discriminant<V>, R>` by inserting every row once, a `fn meta` that
looks the variant's discriminant up in the store, the same `fn all`, and a
no-op exhaustive `fn meta_check` used only for build-time coverage checking.

The shallow embedding below models a table as the ordered list of its rows,
with each row's expression modelled by the value it produces; the HashMap is
modelled at the key-to-value abstraction as an association list with
replace-on-insert; rustc's match exhaustiveness check is modelled as the
predicate that every variant appears among the listed arms.
-/

namespace EnumMeta

/-- A metadata table: the ordered rows `variant, expression` of a `meta!` or
`lazy_meta!` invocation.  Row expressions are modelled by the values they
produce. -/
abbrev Table (V R : Type) := List (V × R)

variable {V R : Type} [DecidableEq V]

/-- The variants listed by the table, in declaration order. -/
def tableKeys (t : Table V R) : List V := t.map Prod.fst

/-- The `meta!`-generated `fn meta` (lib.rs 143-151): a `match self` whose arms
are the table rows in declaration order, so the first arm whose pattern matches
the variant wins.  `none` models a variant matched by no arm, which rustc
rejects at build time through exhaustiveness checking. -/
def metaEager : Table V R → V → Option R
  | [], _ => none
  | (w, r) :: rest, v => if v = w then some r else metaEager rest v

/-- The `meta!`-generated `fn all` (lib.rs 153-159): `vec!` of the listed
variants in declaration order. -/
def allEager (t : Table V R) : List V := t.map Prod.fst

/-- `std::mem::Discriminant<V>`: the opaque structural identity of a variant.
For the fieldless variants attached to metadata here, `std::mem::discriminant`
sends distinct variants to distinct discriminants. -/
structure Discriminant (V : Type) where
  val : V
deriving DecidableEq

/-- `std::mem::discriminant`. -/
def discriminant (v : V) : Discriminant V := ⟨v⟩

/-- `HashMap::insert`, observed through the key-to-value abstraction (a
HashMap's iteration order is unspecified and unobserved by this crate):
replace the value if the key is already bound, otherwise add a new binding. -/
def hmInsert : List (Discriminant V × R) → Discriminant V → R → List (Discriminant V × R)
  | [], k, x => [(k, x)]
  | p :: rest, k, x => if p.1 = k then (k, x) :: rest else p :: hmInsert rest k x

/-- `HashMap::get`. -/
def hmGet : List (Discriminant V × R) → Discriminant V → Option R
  | [], _ => none
  | p :: rest, k => if p.1 = k then some p.2 else hmGet rest k

/-- The position (slot) inside the map holding the value bound to a key: the
model of the reference `HashMap::get` hands out. -/
def hmRef : List (Discriminant V × R) → Discriminant V → Option Nat
  | [], _ => none
  | p :: rest, k => if p.1 = k then some 0 else (hmRef rest k).map (· + 1)

/-- The `lazy_static` initializer of the storage (lib.rs 178-189): starting
from an empty map, insert every row in declaration order, keyed by the
variant's discriminant. -/
def populate (t : Table V R) : List (Discriminant V × R) :=
  t.foldl (fun m row => hmInsert m (discriminant row.1) row.2) []

/-- The `lazy_meta!`-generated `fn meta` (lib.rs 191-194):
`$storage.get(&discriminant(&self))`, on which `.unwrap()` panics exactly when
the lookup result is `none`. -/
def metaLazy (t : Table V R) (v : V) : Option R :=
  hmGet (populate t) (discriminant v)

/-- The `lazy_meta!`-generated `fn all` (lib.rs 196-202): textually the same
expansion as the eager `fn all`. -/
def allLazy (t : Table V R) : List V := t.map Prod.fst

/-- Rustc's match exhaustiveness check for a `match` over the variant type
whose arms are the listed patterns: the match compiles exactly when every
variant of the type appears among the arms. -/
def matchCompiles (variants arms : List V) : Prop := ∀ v ∈ variants, v ∈ arms

instance (variants arms : List V) : Decidable (matchCompiles variants arms) :=
  inferInstanceAs (Decidable (∀ v ∈ variants, v ∈ arms))

/-- A `meta!` invocation builds (type-checks) exactly when the generated
`fn meta`'s match over the table rows is exhaustive for the variant type. -/
def eagerCompiles (variants : List V) (t : Table V R) : Prop :=
  matchCompiles variants (tableKeys t)

instance (variants : List V) (t : Table V R) : Decidable (eagerCompiles variants t) :=
  inferInstanceAs (Decidable (matchCompiles variants (tableKeys t)))

/-- A `lazy_meta!` invocation builds exactly when the generated no-op
`fn meta_check` (lib.rs 205-216) has an exhaustive match over the table rows;
this is a function of the table alone, independent of any runtime `meta`
call. -/
def lazyCompiles (variants : List V) (t : Table V R) : Prop :=
  matchCompiles variants (tableKeys t)

instance (variants : List V) (t : Table V R) : Decidable (lazyCompiles variants t) :=
  inferInstanceAs (Decidable (matchCompiles variants (tableKeys t)))

/-- Runtime state of the `lazy_static` storage: the cache, `none` before first
access, and the number of times the initializer block (which evaluates every
table expression once per run) has run. -/
structure LazyState (V R : Type) where
  cache : Option (List (Discriminant V × R))
  evals : Nat
deriving DecidableEq

/-- Process start: no cache, no evaluation of the table expressions yet. -/
def lazyInit : LazyState V R := ⟨none, 0⟩

/-- One call to the lazy `fn meta`: dereferencing the `lazy_static` storage
runs the initializer exactly when the cache does not exist yet, then `get`s
the caller's discriminant. -/
def lazyCall (t : Table V R) (s : LazyState V R) (v : V) :
    LazyState V R × Option R :=
  match s.cache with
  | none =>
      let m := populate t
      (⟨some m, s.evals + 1⟩, hmGet m (discriminant v))
  | some m => (s, hmGet m (discriminant v))

/-- One call to the lazy `fn meta`, returning the reference (slot position in
the cache) that `get` hands back rather than the value. -/
def lazyCallRef (t : Table V R) (s : LazyState V R) (v : V) :
    LazyState V R × Option Nat :=
  match s.cache with
  | none =>
      let m := populate t
      (⟨some m, s.evals + 1⟩, hmRef m (discriminant v))
  | some m => (s, hmRef m (discriminant v))

/-- Run a sequence of lazy `meta` calls (any interleaving of callers is some
such sequence), threading the storage state. -/
def lazyRun (t : Table V R) (s : LazyState V R) : List V → LazyState V R
  | [] => s
  | v :: vs => lazyRun t (lazyCall t s v).1 vs

/-- The results of a sequence of eager `meta` calls: the generated match holds
no state, so each call just dispatches on its own variant. -/
def eagerTrace (t : Table V R) (calls : List V) : List (Option R) :=
  calls.map (metaEager t)

/-- What a `meta!` invocation without trailing separator expands to: the pair
of generated functions `meta` and `all`. -/
structure EagerImpl (V R : Type) where
  meta : V → Option R
  all : List V

/-- What a `lazy_meta!` invocation without trailing separator expands to. -/
structure LazyImpl (V R : Type) where
  meta : V → Option R
  all : List V

/-- Expansion of the main (no trailing separator) arm of `meta!`
(lib.rs 138-161). -/
def expandMetaMain (rows : Table V R) : EagerImpl V R :=
  ⟨metaEager rows, allEager rows⟩

/-- Expansion of the trailing-separator arm of `meta!` (lib.rs 162-170): it
requires at least one row (`;+`) and re-invokes `meta!` on the same rows
without the trailing separator. -/
def expandMetaTrailing (rows : Table V R) : Option (EagerImpl V R) :=
  match rows with
  | [] => none
  | _ :: _ => some (expandMetaMain rows)

/-- Expansion of the main (no trailing separator) arm of `lazy_meta!`
(lib.rs 175-217). -/
def expandLazyMain (rows : Table V R) : LazyImpl V R :=
  ⟨metaLazy rows, allLazy rows⟩

/-- Expansion of the trailing-separator arm of `lazy_meta!` (lib.rs 218-226):
requires at least one row and re-invokes `lazy_meta!` on the same rows. -/
def expandLazyTrailing (rows : Table V R) : Option (LazyImpl V R) :=
  match rows with
  | [] => none
  | _ :: _ => some (expandLazyMain rows)

/-- The three-variant enum used throughout the crate's documentation and
tests, for concrete witnesses. -/
inductive Colour
  | Red
  | Orange
  | Green
deriving DecidableEq

/-- A concrete covering table with numeric metadata. -/
def demoTable : Table Colour Nat :=
  [(Colour.Red, 10), (Colour.Orange, 11), (Colour.Green, 12)]

/-! Helper lemmas shared by the claim theorems. -/

omit [DecidableEq V] in
theorem tableKeys_nil : tableKeys ([] : Table V R) = [] := rfl

omit [DecidableEq V] in
theorem tableKeys_cons (p : V × R) (t : Table V R) :
    tableKeys (p :: t) = p.1 :: tableKeys t := rfl

omit [DecidableEq V] in
theorem discriminant_inj {v w : V} (h : discriminant v = discriminant w) : v = w := by
  simpa [discriminant, Discriminant.mk.injEq] using h

theorem hmGet_hmInsert (m : List (Discriminant V × R)) (k : Discriminant V) (x : R)
    (d : Discriminant V) :
    hmGet (hmInsert m k x) d = if d = k then some x else hmGet m d := by
  induction m with
  | nil =>
      by_cases h : d = k
      · subst h; simp [hmInsert, hmGet]
      · have h2 : ¬ k = d := fun hkd => h hkd.symm
        simp [hmInsert, hmGet, h, h2]
  | cons p rest ih =>
      by_cases hpk : p.1 = k
      · by_cases hdk : d = k
        · subst hdk; simp [hmInsert, hmGet, hpk]
        · have hpd : ¬ p.1 = d := fun hpd => hdk (hpd ▸ hpk.symm ▸ rfl)
          have hkd : ¬ k = d := fun hkd => hdk hkd.symm
          simp [hmInsert, hmGet, hpk, hdk, hpd, hkd]
      · by_cases hpd : p.1 = d
        · have hdk : ¬ d = k := fun hdk => hpk (hpd.trans hdk)
          simp [hmInsert, hmGet, hpk, hpd, hdk]
        · simp [hmInsert, hmGet, hpk, hpd, ih]

theorem populate_append (t : Table V R) (w : V) (r : R) :
    populate (t ++ [(w, r)]) = hmInsert (populate t) (discriminant w) r := by
  simp [populate, List.foldl_append]

theorem metaLazy_eq_metaEager_reverse (t : Table V R) (v : V) :
    metaLazy t v = metaEager t.reverse v := by
  induction t using List.reverseRecOn with
  | nil => simp [metaLazy, populate, hmGet, metaEager]
  | append_singleton t p ih =>
      rcases p with ⟨w, r⟩
      rw [metaLazy, populate_append, hmGet_hmInsert]
      by_cases h : v = w
      · subst h; simp [metaEager]
      · have hd : discriminant v ≠ discriminant w := fun hd => h (discriminant_inj hd)
        simpa [metaEager, hd, h] using ih

theorem metaEager_isSome_of_mem {t : Table V R} {v : V} (h : v ∈ tableKeys t) :
    (metaEager t v).isSome := by
  induction t with
  | nil => simp [tableKeys] at h
  | cons p rest ih =>
      rcases p with ⟨w, r⟩
      by_cases hvw : v = w
      · simp [metaEager, hvw]
      · have : v ∈ tableKeys rest := by
          simpa [tableKeys, hvw] using h
        simpa [metaEager, hvw] using ih this

theorem metaEager_of_nodup {t : Table V R} {v : V} {r : R}
    (hnd : (tableKeys t).Nodup) (hmem : (v, r) ∈ t) :
    metaEager t v = some r := by
  induction t with
  | nil => simp at hmem
  | cons p rest ih =>
      rcases p with ⟨w, x⟩
      rw [tableKeys_cons] at hnd
      obtain ⟨hw, hnd'⟩ := List.nodup_cons.1 hnd
      rcases List.mem_cons.1 hmem with hhead | htail
      · rw [Prod.mk.injEq] at hhead
        simp [metaEager, hhead.1.symm, hhead.2]
      · have hvw : ¬ v = w := by
          intro hvw
          subst hvw
          exact hw (List.mem_map.2 ⟨(v, r), htail, rfl⟩)
        simpa [metaEager, hvw] using ih hnd' htail

theorem metaEager_append_of_not_mem {l : Table V R} {v : V}
    (h : v ∉ tableKeys l) (t : Table V R) :
    metaEager (l ++ t) v = metaEager t v := by
  induction l with
  | nil => simp
  | cons p rest ih =>
      rcases p with ⟨w, r⟩
      rw [tableKeys_cons, List.mem_cons] at h
      push_neg at h
      simpa [metaEager, h.1] using ih h.2

theorem lazyRun_populated (t : Table V R) (s : LazyState V R)
    (m : List (Discriminant V × R)) (hs : s.cache = some m) (calls : List V) :
    lazyRun t s calls = s := by
  induction calls with
  | nil => rfl
  | cons v vs ih => simp [lazyRun, lazyCall, hs, ih]

theorem lazyRun_ne_nil (t : Table V R) (calls : List V) (h : calls ≠ []) :
    lazyRun t lazyInit calls = ⟨some (populate t), 1⟩ := by
  match calls with
  | [] => exact absurd rfl h
  | v :: vs =>
      have h1 : (lazyCall t (lazyInit : LazyState V R) v).1 = ⟨some (populate t), 1⟩ := by
        simp [lazyCall, lazyInit]
      rw [lazyRun, h1]
      exact lazyRun_populated t _ (populate t) rfl vs

/-! The claim theorems. -/

/-- C1: for every variant type and every metadata table declaring exactly one
entry per variant, `meta(v)` returns exactly the value of the expression
declared for `v`, for every variant `v` the table covers — under the eager
mechanism by direct dispatch on the generated match, and under the lazy
mechanism by lookup of the cached value computed from that expression.
(The uniqueness hypothesis makes "the expression declared for `v`" denote;
tables listing a variant twice are the subject of C10.) -/
theorem C1_meta_returns_declared_value (t : Table V R) (v : V) (r : R)
    (hnd : (tableKeys t).Nodup) (hmem : (v, r) ∈ t) :
    metaEager t v = some r ∧ metaLazy t v = some r := by
  refine ⟨metaEager_of_nodup hnd hmem, ?_⟩
  rw [metaLazy_eq_metaEager_reverse]
  have hnd' : (tableKeys t.reverse).Nodup := by
    simpa [tableKeys, List.map_reverse, List.nodup_reverse] using hnd
  exact metaEager_of_nodup hnd' (List.mem_reverse.2 hmem)

theorem C1_witness :
    (tableKeys demoTable).Nodup ∧ (Colour.Orange, 11) ∈ demoTable ∧
    (metaEager demoTable Colour.Orange = some 11 ∧
     metaLazy demoTable Colour.Orange = some 11) :=
  ⟨by decide, by decide,
   C1_meta_returns_declared_value demoTable Colour.Orange 11 (by decide) (by decide)⟩

/-- A covering table that lists `Red` twice: accepted by both macros (a
duplicate match arm is merely unreachable, not a build error). -/
def dupTable : Table Colour Nat :=
  [(Colour.Red, 0), (Colour.Red, 1), (Colour.Orange, 2), (Colour.Green, 3)]

/-- C2 counterexample: `dupTable` covers every variant of `Colour` and builds
under both mechanisms, yet `all()` lists `Red` twice, refuting "for every
table, all() returns every variant exactly once ... with no duplicates". -/
theorem C2_counterexample :
    eagerCompiles [Colour.Red, Colour.Orange, Colour.Green] dupTable ∧
    lazyCompiles [Colour.Red, Colour.Orange, Colour.Green] dupTable ∧
    (allEager dupTable).count Colour.Red = 2 ∧
    ¬ (allEager dupTable).Nodup :=
  ⟨by decide, by decide, by decide, by decide⟩

/-- C2 (amended): for every table whatsoever, the eager and lazy mechanisms
produce identical `all()` results (both macros expand `fn all` to the same
`vec!` of the listed variants); and for every table listing each variant at
most once, `all()` returns the variants in exactly the table's declaration
order, containing every covered variant exactly once, with no omissions, no
duplicates, and no element outside the variant type. -/
theorem C2_all_declaration_order (variants : List V) (t : Table V R)
    (hcov : ∀ v ∈ variants, v ∈ tableKeys t)
    (hsub : ∀ v ∈ tableKeys t, v ∈ variants)
    (hnd : (tableKeys t).Nodup) :
    (∀ u : Table V R, allLazy u = allEager u) ∧
    allEager t = tableKeys t ∧
    (∀ v ∈ variants, (allEager t).count v = 1) ∧
    (allEager t).Nodup ∧ (∀ v ∈ allEager t, v ∈ variants) := by
  refine ⟨fun u => rfl, rfl, fun v hv => ?_, hnd, hsub⟩
  exact List.count_eq_one_of_mem hnd (hcov v hv)

theorem C2_witness :
    (∀ v ∈ [Colour.Red, Colour.Orange, Colour.Green], v ∈ tableKeys demoTable) ∧
    (∀ v ∈ tableKeys demoTable, v ∈ [Colour.Red, Colour.Orange, Colour.Green]) ∧
    (tableKeys demoTable).Nodup ∧
    ((∀ u : Table Colour Nat, allLazy u = allEager u) ∧
     allEager demoTable = tableKeys demoTable ∧
     (∀ v ∈ [Colour.Red, Colour.Orange, Colour.Green], (allEager demoTable).count v = 1) ∧
     (allEager demoTable).Nodup ∧
     (∀ v ∈ allEager demoTable, v ∈ [Colour.Red, Colour.Orange, Colour.Green])) :=
  ⟨by decide, by decide, by decide,
   C2_all_declaration_order [Colour.Red, Colour.Orange, Colour.Green] demoTable
     (by decide) (by decide) (by decide)⟩

/-- A table that omits the `Green` variant. -/
def missingTable : Table Colour Nat :=
  [(Colour.Red, 0), (Colour.Orange, 1)]

omit [DecidableEq V] in
/-- C3: a metadata table that omits a variant of the variant type fails at
build time for both mechanisms, never at use time: the eager `fn meta`'s
match and the lazy mechanism's no-op `fn meta_check` match are then
inexhaustive, so neither invocation type-checks.  `lazyCompiles` is a
function of the table alone — defined without reference to `lazyRun` or any
runtime lookup — so the lazy coverage check holds independently of whether
any variant is ever looked up at runtime. -/
theorem C3_omitted_variant_fails_build (variants : List V) (t : Table V R) (v : V)
    (hv : v ∈ variants) (hmiss : v ∉ tableKeys t) :
    ¬ eagerCompiles variants t ∧ ¬ lazyCompiles variants t :=
  ⟨fun h => hmiss (h v hv), fun h => hmiss (h v hv)⟩

theorem C3_witness :
    Colour.Green ∈ [Colour.Red, Colour.Orange, Colour.Green] ∧
    Colour.Green ∉ tableKeys missingTable ∧
    (¬ eagerCompiles [Colour.Red, Colour.Orange, Colour.Green] missingTable ∧
     ¬ lazyCompiles [Colour.Red, Colour.Orange, Colour.Green] missingTable) :=
  ⟨by decide, by decide,
   C3_omitted_variant_fails_build [Colour.Red, Colour.Orange, Colour.Green]
     missingTable Colour.Green (by decide) (by decide)⟩

/-- C4: for the lazy mechanism, after any history of `meta` calls — including
the empty one, in which case the call at hand performs the first population —
a call to `meta` on any variant `v` returns the same reference (the same slot
of the same underlying cache `populate t`) and leaves that cache installed,
so the reference stays valid for the remainder of the process: every call on
`v`, in any order and any number of times, yields a reference to the same
single stored value. -/
theorem C4_lazy_meta_reference_identical (t : Table V R) (v : V) (cs : List V) :
    (lazyCallRef t (lazyRun t lazyInit cs) v).2 = hmRef (populate t) (discriminant v) ∧
    ((lazyCallRef t (lazyRun t lazyInit cs) v).1).cache = some (populate t) := by
  cases cs with
  | nil => exact ⟨rfl, rfl⟩
  | cons c cs' =>
      rw [lazyRun_ne_nil t (c :: cs') (List.cons_ne_nil c cs')]
      exact ⟨rfl, rfl⟩

/-- C5: for the lazy mechanism, cache population happens exactly once: after
any nonempty sequence of `meta` calls the `lazy_static` initializer — which
evaluates every table expression once per run — has run exactly once,
regardless of how many variants are looked up or which caller triggered the
first access; the cache holds `populate t` and is never mutated by any
further calls. -/
theorem C5_population_exactly_once (t : Table V R) (calls : List V)
    (h : calls ≠ []) :
    (lazyRun t lazyInit calls).evals = 1 ∧
    (lazyRun t lazyInit calls).cache = some (populate t) ∧
    ∀ extra : List V, lazyRun t (lazyRun t lazyInit calls) extra = lazyRun t lazyInit calls := by
  rw [lazyRun_ne_nil t calls h]
  exact ⟨rfl, rfl, fun extra => lazyRun_populated t _ (populate t) rfl extra⟩

theorem C5_witness :
    ([Colour.Red, Colour.Red, Colour.Orange] ≠ ([] : List Colour)) ∧
    ((lazyRun demoTable lazyInit [Colour.Red, Colour.Red, Colour.Orange]).evals = 1 ∧
     (lazyRun demoTable lazyInit [Colour.Red, Colour.Red, Colour.Orange]).cache
       = some (populate demoTable) ∧
     ∀ extra : List Colour,
       lazyRun demoTable (lazyRun demoTable lazyInit [Colour.Red, Colour.Red, Colour.Orange]) extra
         = lazyRun demoTable lazyInit [Colour.Red, Colour.Red, Colour.Orange]) :=
  ⟨by decide,
   C5_population_exactly_once demoTable [Colour.Red, Colour.Red, Colour.Orange] (by decide)⟩

/-- C6: for the lazy mechanism, `meta` is total over every variant the table
covers: if the table contains an entry for the looked-up variant, the cache
lookup finds an entry (`isSome`), so the `.unwrap()` on the lookup result
never panics. -/
theorem C6_lazy_meta_total_on_covered (t : Table V R) (v : V)
    (h : v ∈ tableKeys t) :
    (metaLazy t v).isSome := by
  rw [metaLazy_eq_metaEager_reverse]
  apply metaEager_isSome_of_mem
  have hrev : v ∈ (tableKeys t).reverse := List.mem_reverse.2 h
  simpa [tableKeys, List.map_reverse] using hrev

theorem C6_witness :
    Colour.Green ∈ tableKeys demoTable ∧ (metaLazy demoTable Colour.Green).isSome :=
  ⟨by decide, C6_lazy_meta_total_on_covered demoTable Colour.Green (by decide)⟩

/-- C7: the lazy cache is keyed by each variant's structural identity (its
discriminant), not by the metadata value: distinct variants have distinct
cache keys, so inserting an entry for `w` — whatever its value `r`, including
one equal to the value stored for `v` — never changes the binding looked up
for `v`, and appending a row for `w` to a table never changes `v`'s cached
value.  The metadata type `R` here is an arbitrary type carrying no equality
or hashing structure: the key is derived from the variant alone. -/
theorem C7_cache_keyed_by_discriminant (t : Table V R) (v w : V) (hvw : v ≠ w) :
    discriminant v ≠ discriminant w ∧
    (∀ (m : List (Discriminant V × R)) (r : R),
      hmGet (hmInsert m (discriminant w) r) (discriminant v) = hmGet m (discriminant v)) ∧
    (∀ r : R, metaLazy (t ++ [(w, r)]) v = metaLazy t v) := by
  have hd : discriminant v ≠ discriminant w := fun h => hvw (discriminant_inj h)
  refine ⟨hd, fun m r => ?_, fun r => ?_⟩
  · rw [hmGet_hmInsert]
    simp [hd]
  · rw [metaLazy, populate_append, hmGet_hmInsert]
    simp [hd, metaLazy]

theorem C7_witness :
    Colour.Red ≠ Colour.Orange ∧
    (discriminant Colour.Red ≠ discriminant Colour.Orange ∧
     (∀ (m : List (Discriminant Colour × Nat)) (r : Nat),
       hmGet (hmInsert m (discriminant Colour.Orange) r) (discriminant Colour.Red)
         = hmGet m (discriminant Colour.Red)) ∧
     (∀ r : Nat, metaLazy (demoTable ++ [(Colour.Orange, r)]) Colour.Red
         = metaLazy demoTable Colour.Red)) :=
  ⟨by decide, C7_cache_keyed_by_discriminant demoTable Colour.Red Colour.Orange (by decide)⟩

/-- C8: for both mechanisms, a table written with a trailing separator after
the last row generates `meta` and `all` with behavior identical to the table
written without it: the trailing-separator macro arm (which requires at least
one row) re-invokes the macro on exactly the same rows. -/
theorem C8_trailing_separator_identical (rows : Table V R) (h : rows ≠ []) :
    expandMetaTrailing rows = some (expandMetaMain rows) ∧
    expandLazyTrailing rows = some (expandLazyMain rows) := by
  match rows with
  | [] => exact absurd rfl h
  | p :: rest => exact ⟨rfl, rfl⟩

theorem C8_witness :
    (demoTable ≠ []) ∧
    (expandMetaTrailing demoTable = some (expandMetaMain demoTable) ∧
     expandLazyTrailing demoTable = some (expandLazyMain demoTable)) :=
  ⟨by decide, C8_trailing_separator_identical demoTable (by decide)⟩

/-- C9: for the eager mechanism, `meta` is a pure function of the variant's
identity: in any sequence of calls, the result of the call at position `i`
is `metaEager t` of that call's variant alone, so two calls on the same
variant return equal results wherever they occur in the sequence and whatever
other calls are made between them — even though the declared expression is
evaluated fresh on every call (each call re-runs the dispatch; the generated
match holds no state). -/
theorem C9_eager_meta_pure (t : Table V R) (calls : List V) (i j : Nat)
    (hi : i < calls.length) (hj : j < calls.length)
    (hsame : calls.get ⟨i, hi⟩ = calls.get ⟨j, hj⟩) :
    (eagerTrace t calls).get ⟨i, by simpa [eagerTrace] using hi⟩
      = metaEager t (calls.get ⟨i, hi⟩) ∧
    (eagerTrace t calls).get ⟨i, by simpa [eagerTrace] using hi⟩
      = (eagerTrace t calls).get ⟨j, by simpa [eagerTrace] using hj⟩ := by
  have e1 : (eagerTrace t calls).get ⟨i, by simpa [eagerTrace] using hi⟩
      = metaEager t (calls.get ⟨i, hi⟩) := by
    simp [eagerTrace, List.get_eq_getElem, List.getElem_map]
  have e2 : (eagerTrace t calls).get ⟨j, by simpa [eagerTrace] using hj⟩
      = metaEager t (calls.get ⟨j, hj⟩) := by
    simp [eagerTrace, List.get_eq_getElem, List.getElem_map]
  exact ⟨e1, by rw [e1, e2, hsame]⟩

theorem C9_witness :
    (0 < ([Colour.Green, Colour.Red, Colour.Green] : List Colour).length) ∧
    (2 < ([Colour.Green, Colour.Red, Colour.Green] : List Colour).length) ∧
    ([Colour.Green, Colour.Red, Colour.Green].get ⟨0, by decide⟩
      = [Colour.Green, Colour.Red, Colour.Green].get ⟨2, by decide⟩) ∧
    ((eagerTrace demoTable [Colour.Green, Colour.Red, Colour.Green]).get ⟨0, by decide⟩
      = metaEager demoTable ([Colour.Green, Colour.Red, Colour.Green].get ⟨0, by decide⟩) ∧
     (eagerTrace demoTable [Colour.Green, Colour.Red, Colour.Green]).get ⟨0, by decide⟩
      = (eagerTrace demoTable [Colour.Green, Colour.Red, Colour.Green]).get ⟨2, by decide⟩) :=
  ⟨by decide, by decide, by decide,
   C9_eager_meta_pure demoTable [Colour.Green, Colour.Red, Colour.Green] 0 2
     (by decide) (by decide) (by decide)⟩

/-- C10: if a table lists the same variant `v` more than once with different
expressions — first listed value `a`, last listed value `b`, `a ≠ b` — the
two mechanisms disagree: the eager `meta` returns the first listed entry's
value (earlier match arms shadow later ones), while the lazy `meta` returns
the last listed entry's value (later cache inserts under the same
discriminant key overwrite earlier ones). -/
theorem C10_duplicate_rows_disagree (l₁ l₂ l₃ : Table V R) (v : V) (a b : R)
    (h₁ : v ∉ tableKeys l₁) (h₃ : v ∉ tableKeys l₃) (hab : a ≠ b) :
    metaEager (l₁ ++ (v, a) :: l₂ ++ (v, b) :: l₃) v = some a ∧
    metaLazy (l₁ ++ (v, a) :: l₂ ++ (v, b) :: l₃) v = some b ∧
    metaEager (l₁ ++ (v, a) :: l₂ ++ (v, b) :: l₃) v
      ≠ metaLazy (l₁ ++ (v, a) :: l₂ ++ (v, b) :: l₃) v := by
  have he : metaEager (l₁ ++ (v, a) :: l₂ ++ (v, b) :: l₃) v = some a := by
    rw [List.append_assoc, metaEager_append_of_not_mem h₁, List.cons_append]
    simp [metaEager]
  have h₃r : v ∉ tableKeys l₃.reverse := by
    intro hm
    apply h₃
    have : v ∈ (tableKeys l₃).reverse := by
      simpa [tableKeys, List.map_reverse] using hm
    exact List.mem_reverse.1 this
  have hrev : (l₁ ++ (v, a) :: l₂ ++ (v, b) :: l₃).reverse
      = l₃.reverse ++ (v, b) :: (l₂.reverse ++ (v, a) :: l₁.reverse) := by
    simp
  have hl : metaLazy (l₁ ++ (v, a) :: l₂ ++ (v, b) :: l₃) v = some b := by
    rw [metaLazy_eq_metaEager_reverse, hrev, metaEager_append_of_not_mem h₃r]
    simp [metaEager]
  exact ⟨he, hl, by rw [he, hl]; simp [hab]⟩

theorem C10_witness :
    (Colour.Red ∉ tableKeys [(Colour.Orange, 1)]) ∧
    (Colour.Red ∉ tableKeys [(Colour.Green, 2)]) ∧
    ((5 : Nat) ≠ 6) ∧
    (metaEager ([(Colour.Orange, 1)] ++ (Colour.Red, 5) :: [] ++ (Colour.Red, 6) :: [(Colour.Green, 2)]) Colour.Red = some 5 ∧
     metaLazy ([(Colour.Orange, 1)] ++ (Colour.Red, 5) :: [] ++ (Colour.Red, 6) :: [(Colour.Green, 2)]) Colour.Red = some 6 ∧
     metaEager ([(Colour.Orange, 1)] ++ (Colour.Red, 5) :: [] ++ (Colour.Red, 6) :: [(Colour.Green, 2)]) Colour.Red
       ≠ metaLazy ([(Colour.Orange, 1)] ++ (Colour.Red, 5) :: [] ++ (Colour.Red, 6) :: [(Colour.Green, 2)]) Colour.Red) :=
  ⟨by decide, by decide, by decide,
   C10_duplicate_rows_disagree [(Colour.Orange, 1)] [] [(Colour.Green, 2)]
     Colour.Red 5 6 (by decide) (by decide) (by decide)⟩

end EnumMeta
